import Mathlib

/-!
Shallow embedding of the `spaces` repository (Rust) for specification
verification.  Paths and glob patterns are modelled as `List Char`
(the byte/char sequence of the Rust `&str`); filesystems are explicit
lists of paths; external `git` invocations are modelled as an abstract
store of raw command outcomes.  Each Rust function of interest is
translated into a Lean definition of the same name.
-/

namespace Spaces

/-! ## paths.rs : sanitize_branch_name -/

/-- Character replacement from `sanitize_branch_name` (paths.rs):
`/ \ space : * ? " < > | #` each become `-`; everything else is kept. -/
def replaceChar (c : Char) : Char :=
  if c = '/' ∨ c = '\\' ∨ c = ' ' ∨ c = ':' ∨ c = '*' ∨ c = '?' ∨
     c = '"' ∨ c = '<' ∨ c = '>' ∨ c = '|' ∨ c = '#' then '-' else c

/-- Rust `str::trim_matches('-')`: strip `'-'` from both ends. -/
def trimDashes (l : List Char) : List Char :=
  ((l.dropWhile (fun c => c = '-')).reverse.dropWhile (fun c => c = '-')).reverse

/-- `sanitize_branch_name` (paths.rs lines 13-23): replace the special
characters by `-`, then trim `-` from both ends. -/
def sanitize_branch_name (name : List Char) : List Char :=
  trimDashes (name.map replaceChar)

/-! ## copy.rs : glob matching

The `glob` crate is used with `MatchOptions { case_sensitive: true,
require_literal_separator: false, require_literal_leading_dot: false }`.
We model the fragment of glob syntax the program's patterns use:
literal characters, `?` (any one character) and `*` (any character
sequence; since `require_literal_separator = false`, `*` may match `/`
when a compiled `Pattern` is matched against a whole relative path).
Character classes `[...]` and `**` components are outside the model. -/

/-- `Pattern::matches_path_with` with `require_literal_separator = false`:
match a pattern string against a whole path string; `*` may cross `/`.
`*` consumes an arbitrary (possibly empty) sequence, i.e. the rest of the
pattern must match some suffix of the string. -/
def globMatch : List Char → List Char → Bool
  | [], s => s.isEmpty
  | p :: ps, s =>
    if p = '*' then (List.tails s).any (fun t => globMatch ps t)
    else if p = '?' then
      match s with
      | [] => false
      | _ :: cs => globMatch ps cs
    else
      match s with
      | [] => false
      | c :: cs => (p = c) && globMatch ps cs

/-- Split a character list at every occurrence of a separator. -/
def splitSep (sep : Char) : List Char → List (List Char)
  | [] => [[]]
  | c :: rest =>
    let r := splitSep sep rest
    if c = sep then [] :: r
    else match r with
      | [] => [[c]]
      | h :: t => (c :: h) :: t

/-- Split a path or pattern on `'/'` into components. -/
def splitSlash (l : List Char) : List (List Char) :=
  splitSep '/' l

/-- Filesystem glob expansion (`glob_with`) matches the pattern one
directory component at a time, so a `*` inside a component never crosses
a `/`: a relative path matches iff it has the same number of components
and each component matches the corresponding pattern component. -/
def fsGlobMatch (pat path : List Char) : Bool :=
  let ps := splitSlash pat
  let cs := splitSlash path
  ps.length = cs.length && (List.zip ps cs).all (fun pc => globMatch pc.1 pc.2)

/-! ## copy.rs : unsafe patterns and copy_patterns -/

/-- Does `sub` occur as a contiguous substring of the second argument
(Rust `str::contains`)? -/
def containsSub (sub : List Char) : List Char → Bool
  | [] => sub.isPrefixOf []
  | c :: rest => sub.isPrefixOf (c :: rest) || containsSub sub rest

/-- Rust `str::ends_with`. -/
def endsWithL (suf p : List Char) : Bool :=
  suf.reverse.isPrefixOf p.reverse

/-- `is_unsafe_pattern` (copy.rs lines 27-33): the pattern starts with
`/`, equals `..`, starts with `../`, contains `/../`, or ends with
`/..`. -/
def is_unsafe_pattern (p : List Char) : Bool :=
  ("/".toList).isPrefixOf p
    || p == "..".toList
    || ("../".toList).isPrefixOf p
    || containsSub "/../".toList p
    || endsWithL "/..".toList p

/-- `pattern.strip_prefix("./").unwrap_or(pattern)` (copy.rs line 72). -/
def stripDotSlash (p : List Char) : List Char :=
  if ("./".toList).isPrefixOf p then p.drop 2 else p

/-- Mutable state threaded through the file-copy loop of `copy_patterns`:
the `copied` counter, the `seen` set of relative paths, the ordered list
of selected relative paths (what is logged), and the list of destination
paths actually written (filesystem mutations; stays empty in dry-run). -/
structure CopyState where
  copied : Nat
  seen : List (List Char)
  rels : List (List Char)
  writes : List (List Char)
  deriving Repr, DecidableEq

/-- Result of `copy_patterns`: the terminal count, the selected relative
paths in order, and the destination paths written. -/
structure CopyOutcome where
  copied : Nat
  rels : List (List Char)
  writes : List (List Char)
  deriving Repr, DecidableEq

/-- Loop body of `copy_patterns` for one glob candidate (copy.rs lines
76-109): skip when an exclude pattern matches the relative path
(`matches_path_with` over the whole path), skip when already `seen`,
otherwise record the copy to `dst_root.join(rel)` (a real write only
when not in dry-run). -/
def copyFileStep (dstRoot : List Char) (excludePats : List (List Char))
    (dryRun : Bool) (st : CopyState) (rel : List Char) : CopyState :=
  if excludePats.any (fun pat => globMatch pat rel) then st
  else if rel ∈ st.seen then st
  else
    { copied := st.copied + 1
      seen := rel :: st.seen
      rels := st.rels ++ [rel]
      writes := if dryRun then st.writes else st.writes ++ [dstRoot ++ '/' :: rel] }

/-- Loop body of `copy_patterns` for one include pattern (copy.rs lines
66-110): an unsafe pattern is skipped entirely; otherwise the leading
`./` is stripped, the pattern is expanded as a filesystem glob rooted at
`src_root` (modelled as filtering the tree's regular-file relative paths
with the componentwise matcher), and each candidate runs the copy
step. -/
def includeStep (files : List (List Char)) (dstRoot : List Char)
    (excludePats : List (List Char)) (dryRun : Bool)
    (st : CopyState) (pattern : List Char) : CopyState :=
  if is_unsafe_pattern pattern then st
  else
    let normalized := stripDotSlash pattern
    (files.filter (fun f => fsGlobMatch normalized f)).foldl
      (copyFileStep dstRoot excludePats dryRun) st

/-- `copy_patterns` (copy.rs lines 35-121), over a source tree given as
the list of relative paths of its regular files (in traversal order).
Unsafe exclude patterns are dropped from the exclude set (copy.rs lines
46-55); then each include pattern is processed in turn. -/
def copy_patterns (files : List (List Char)) (dstRoot : List Char)
    (includes excludes : List (List Char)) (dryRun : Bool) : CopyOutcome :=
  if includes.isEmpty then ⟨0, [], []⟩
  else
    let excludePats := excludes.filter (fun p => !is_unsafe_pattern p)
    let st := includes.foldl (includeStep files dstRoot excludePats dryRun)
      ⟨0, [], [], []⟩
    ⟨st.copied, st.rels, st.writes⟩

/-- A relative path as produced by a real filesystem walk: nonempty, not
absolute, and containing no `..` component (directory iteration never
yields `..` entries). -/
def wellFormedRel (rel : List Char) : Bool :=
  !rel.isEmpty && !(("/".toList).isPrefixOf rel)
    && !((splitSlash rel).any (fun c => c == "..".toList))

/-! ## copy.rs : copy_directories and copy_dir_recursive -/

/-- Kind of a walk entry as classified by the `file_type()` tests in
copy.rs (anything that is neither directory, regular file nor symlink
creates nothing). -/
inductive EntryKind where
  | dir
  | file
  | symlink
  | other
  deriving DecidableEq, Repr

/-- One entry of a recursive directory walk: its path relative to the
walk root, and its kind. -/
structure DirEntry where
  rel : List Char
  kind : EntryKind
  deriving DecidableEq, Repr

/-- Source tree as seen by `copy_directories`: `dirs` lists the relative
paths of the directories found by the `WalkDir` traversal of `src_root`
with `min_depth(1)` (non-directory entries are dropped by the code's
`is_dir` filter), in walk order; `walk rel` is the recursive walk of
the subtree rooted at such a directory, with paths relative to that
directory (its first entry is the directory itself, carrying the empty
relative path). -/
structure DirTree where
  dirs : List (List Char)
  walk : List Char → List DirEntry

/-- `entry.file_name()`: the final path component of a relative path. -/
def baseName (rel : List Char) : List Char :=
  match (splitSlash rel).reverse with
  | [] => []
  | b :: _ => b

/-- `copy_dir_recursive` (copy.rs lines 192-227), returning the list of
paths created under `dst`.  For each walk entry: the empty relative path
(the walked directory's own root marker) is skipped; an entry whose
relative path matches an exclude pattern is skipped (`matches_path`
uses the default `MatchOptions`, identical to the explicit options used
elsewhere); otherwise the entry is created at `dst.join(rel)` — a
directory via `create_dir_all`, a regular file via `fs::copy`, a
symlink best-effort; any other kind creates nothing. -/
def copy_dir_recursive (dst : List Char) (excludePats : List (List Char))
    (entries : List DirEntry) : List (List Char) :=
  entries.foldl
    (fun acc e =>
      if e.rel.isEmpty then acc
      else if excludePats.any (fun pat => globMatch pat e.rel) then acc
      else
        match e.kind with
        | EntryKind.dir => acc ++ [dst ++ '/' :: e.rel]
        | EntryKind.file => acc ++ [dst ++ '/' :: e.rel]
        | EntryKind.symlink => acc ++ [dst ++ '/' :: e.rel]
        | EntryKind.other => acc)
    []

/-- Loop body of `copy_directories` for one directory of the walk
(copy.rs lines 156-182): skip unless the include pattern matches the
directory's basename (`Pattern::matches`, default options), skip when an
exclude pattern matches the relative path, otherwise copy the subtree
recursively to `dst_root.join(rel)` and count it. -/
def dirEntryStep (dstRoot : List Char) (excludePats : List (List Char))
    (walk : List Char → List DirEntry) (pattern : List Char)
    (acc : Nat × List (List Char)) (rel : List Char) : Nat × List (List Char) :=
  if !(globMatch pattern (baseName rel)) then acc
  else if excludePats.any (fun pat => globMatch pat rel) then acc
  else (acc.1 + 1,
    acc.2 ++ copy_dir_recursive (dstRoot ++ '/' :: rel) excludePats (walk rel))

/-- Loop body of `copy_directories` for one include pattern (copy.rs
lines 146-183): an unsafe pattern is skipped entirely; otherwise every
directory found by the walk is tested against it. -/
def dirIncludeStep (tree : DirTree) (dstRoot : List Char)
    (excludePats : List (List Char)) (acc : Nat × List (List Char))
    (pattern : List Char) : Nat × List (List Char) :=
  if is_unsafe_pattern pattern then acc
  else tree.dirs.foldl (dirEntryStep dstRoot excludePats tree.walk pattern) acc

/-- `copy_directories` (copy.rs lines 123-189), returning the terminal
count together with the list of paths created under `dst_root`.  Unsafe
exclude patterns are dropped from the exclude set (copy.rs lines
133-142) exactly as in `copy_patterns`. -/
def copy_directories (tree : DirTree) (dstRoot : List Char)
    (includes excludes : List (List Char)) : Nat × List (List Char) :=
  if includes.isEmpty then (0, [])
  else
    let excludePats := excludes.filter (fun p => !is_unsafe_pattern p)
    includes.foldl (dirIncludeStep tree dstRoot excludePats) (0, [])

/-- A concrete directory tree for instantiating theorems: one directory
`.vscode` holding one settings file. -/
def sampleDirTree : DirTree :=
  ⟨[".vscode".toList],
   fun r =>
     if r = ".vscode".toList then
       [⟨[], EntryKind.dir⟩, ⟨"settings.json".toList, EntryKind.file⟩]
     else []⟩

/-- Inverse of `splitSep`: interleave the separator between components. -/
def joinSep (sep : Char) : List (List Char) → List Char
  | [] => []
  | [c] => c
  | c :: rest => c ++ sep :: joinSep sep rest

/-- Correspondence between a dry run and a real run of the copy loop:
identical counter, seen-set, and selection order. -/
def DrySim (st st' : CopyState) : Prop :=
  st.copied = st'.copied ∧ st.seen = st'.seen ∧ st.rels = st'.rels

/-! ## git.rs : subprocess outcomes -/

/-- Outcome of spawning an external command: `none` when the process
could not be run at all, otherwise the exit-status success flag and the
captured stdout. -/
abbrev RawResult := Option (Bool × String)

/-- Rust `str::trim`: remove Unicode whitespace from both ends. -/
def rustTrim (s : String) : String :=
  String.mk (((s.toList.dropWhile Char.isWhitespace).reverse.dropWhile
    Char.isWhitespace).reverse)

/-- `git_stdout_opt` (git.rs lines 48-64): `Some(trimmed stdout)` when the
command spawned, exited successfully, and the trimmed stdout is nonempty;
`None` in every other case. -/
def git_stdout_opt (r : RawResult) : Option String :=
  match r with
  | some (true, out) =>
    let t := rustTrim out
    if t.isEmpty then none else some t
  | _ => none

/-! ## config.rs : scopes and the configuration resolver -/

inductive Scope where
  | Auto
  | Local
  | Global
  | System
  deriving DecidableEq, Repr

/-- Rust `str::lines`: split on `\n`, dropping one trailing `\r` per
line.  (Only applied to trimmed nonempty output, which never carries a
trailing newline, so the trailing-empty-line divergence of splitting
from Rust `lines` cannot arise.) -/
def rustLines (s : String) : List String :=
  (splitSep '\n' s.toList).map (fun l =>
    if l.getLast? = some '\r' then String.mk l.dropLast else String.mk l)

/-- The external `git config` store and process environment, as seen
through the raw invocations config.rs makes: `--get` per scope,
`--get-all` per scope, `-f .spacesrc --get-all`, the existence of the
`.spacesrc` file, and `std::env::var`. -/
structure ConfigStore where
  getRaw : Scope → String → RawResult
  getAllRaw : Scope → String → RawResult
  fileExists : Bool
  fileGetAllRaw : String → RawResult
  envVar : String → Option String

/-- `git_config_get` (config.rs lines 29-38). -/
def git_config_get (st : ConfigStore) (key : String) (scope : Scope) :
    Option String :=
  git_stdout_opt (st.getRaw scope key)

/-- `git_config_get_all` (config.rs lines 40-52): split the captured
output into lines, or the empty vector when the lookup yielded nothing. -/
def git_config_get_all (st : ConfigStore) (key : String) (scope : Scope) :
    List String :=
  match git_stdout_opt (st.getAllRaw scope key) with
  | some value => rustLines value
  | none => []

/-- `git_config_file_get_all` (config.rs lines 54-65): empty when the
`.spacesrc` file does not exist, otherwise a `--get-all` against it. -/
def git_config_file_get_all (st : ConfigStore) (key : String) :
    List String :=
  if st.fileExists then
    match git_stdout_opt (st.fileGetAllRaw key) with
    | some value => rustLines value
    | none => []
  else []

/-- The `seen.insert` / `out.push` accumulation loop repeated four times
in the Auto arm of `cfg_get_all` (config.rs lines 74-93); `seen` models
the `HashSet<String>`. -/
def autoAccum : List String × List String → List String → List String × List String
  | acc, [] => acc
  | (seen, out), v :: rest =>
    if v ∈ seen then autoAccum (seen, out) rest
    else autoAccum (v :: seen, out ++ [v]) rest

/-- `cfg_get_all` (config.rs lines 67-98): a direct `--get-all` for the
three concrete scopes; for Auto, the fixed-order accumulation of Local,
`.spacesrc`-file, Global, then System values under one seen-set. -/
def cfg_get_all (st : ConfigStore) (key : String) : Scope → List String
  | Scope.Auto =>
    let a1 := autoAccum ([], []) (git_config_get_all st key Scope.Local)
    let a2 := autoAccum a1 (git_config_file_get_all st key)
    let a3 := autoAccum a2 (git_config_get_all st key Scope.Global)
    let a4 := autoAccum a3 (git_config_get_all st key Scope.System)
    a4.2
  | scope => git_config_get_all st key scope

/-- The repeated Rust shape `if let Some(value) = o { if !value.is_empty()
{ return Ok(value); } }`: keep the value only when present and nonempty. -/
def nonEmptyOpt (o : Option String) : Option String :=
  match o with
  | some v => if v.isEmpty then none else some v
  | none => none

/-- Tier (1) of `cfg_default`: Local-scope single value (config.rs
lines 107-111). -/
def localTier (st : ConfigStore) (key : String) : Option String :=
  nonEmptyOpt (git_config_get st key Scope.Local)

/-- Tier (2) of `cfg_default`: first `.spacesrc` value under the
alternate file key when supplied, else under the same key (config.rs
lines 113-127; only `values.first()` is examined). -/
def fileTier (st : ConfigStore) (key : String) (file_key : Option String) :
    Option String :=
  nonEmptyOpt ((git_config_file_get_all st (file_key.getD key)).head?)

/-- Tier (3) of `cfg_default`: Auto-scope single value (config.rs lines
129-133). -/
def autoTier (st : ConfigStore) (key : String) : Option String :=
  nonEmptyOpt (git_config_get st key Scope.Auto)

/-- Tier (4) of `cfg_default`: the named environment variable, consulted
only when a name was supplied (config.rs lines 135-141). -/
def envTier (st : ConfigStore) (env_name : String) : Option String :=
  if env_name.isEmpty then none else nonEmptyOpt (st.envVar env_name)

/-- The fall-through of `cfg_default` once the Local tier has not
returned: file value, then Auto value, then environment variable, then
the literal fallback (config.rs lines 113-143). -/
def cfg_default_from_file (st : ConfigStore)
    (key env_name fallback : String) (file_key : Option String) : String :=
  (((fileTier st key file_key).orElse
      (fun _ => autoTier st key)).orElse
      (fun _ => envTier st env_name)).getD fallback

/-- `cfg_default` (config.rs lines 100-144): the early-return chain is
rendered as an `Option.orElse` chain ending in the literal fallback.
The Rust function returns `Result` but contains no fallible operation,
so it is total here (it never returns an error). -/
def cfg_default (st : ConfigStore) (key env_name fallback : String)
    (file_key : Option String) : String :=
  ((localTier st key).orElse
      (fun _ => ((fileTier st key file_key).orElse
        (fun _ => autoTier st key)).orElse
        (fun _ => envTier st env_name))).getD fallback

/-- Modelled from the spec: "first non-empty wins, short-circuit" over an
ordered list of candidate values, terminating in the literal fallback. -/
def specFirstNonEmpty : List (Option String) → String → String
  | [], fb => fb
  | o :: rest, fb =>
    match o with
    | some v => if v.isEmpty then specFirstNonEmpty rest fb else v
    | none => specFirstNonEmpty rest fb

/-- Modelled from the spec: "deduplicating by exact string equality while
preserving first-seen order". -/
def dedupFirst (seen : List String) : List String → List String
  | [] => []
  | v :: rest =>
    if v ∈ seen then dedupFirst seen rest
    else v :: dedupFirst (v :: seen) rest

/-! ## targets.rs : branch lookup and target resolution

Filesystem paths handled by `Path`/`PathBuf` methods (`join`,
`starts_with`, `is_dir`, `exists`) are modelled as lists of components
(`List String`); `Path::starts_with` is a componentwise prefix test and
`join` with a single file name appends one component.  A filesystem is
the list of its existing nodes (directories and files). -/

/-- The two branch-querying `git` invocations `current_branch` makes,
as functions of the working directory they run in. -/
structure GitWorld where
  branchShowCurrent : List String → RawResult
  revParseAbbrevHead : List String → RawResult

/-- A concrete git world for instantiating theorems: every branch query
fails to spawn. -/
def failingGitWorld : GitWorld := ⟨fun _ => none, fun _ => none⟩

/-- `Target` (targets.rs lines 8-13). -/
structure Target where
  is_main : Bool
  path : List String
  name : String
  branch : String
  deriving DecidableEq, Repr

/-- `current_branch` (targets.rs lines 15-23): `branch --show-current`,
falling back to `rev-parse --abbrev-ref HEAD`; a literal `HEAD` answer
becomes `(detached)`; no usable answer becomes `None`. -/
def current_branch (w : GitWorld) (path : List String) : Option String :=
  let branch := (git_stdout_opt (w.branchShowCurrent path)).orElse
    (fun _ => git_stdout_opt (w.revParseAbbrevHead path))
  match branch with
  | some b => if b = "HEAD" then some "(detached)"
              else if !b.isEmpty then some b else none
  | none => none

/-- `resolve_target` (targets.rs lines 25-49).  `fs` is the list of
existing filesystem nodes (`direct.is_dir()` is modelled as membership);
the identifier `"1"` short-circuits to the main repository before any
filesystem access. -/
def resolve_target (w : GitWorld) (fs : List (List String))
    (identifier : String) (repo_root clones_dir : List String)
    (pfx : String) : Except String Target :=
  if identifier = "1" then
    let branch := (current_branch w repo_root).getD "(detached)"
    Except.ok ⟨true, repo_root, "main", branch⟩
  else
    let sanitized := String.mk (sanitize_branch_name identifier.toList)
    let direct := clones_dir ++ [pfx ++ sanitized]
    if fs.contains direct then
      let branch := (current_branch w direct).getD "(detached)"
      Except.ok ⟨false, direct, identifier, branch⟩
    else
      Except.error ("Target not found for space: " ++ identifier)

/-! ## main.rs : safe_remove_clone and the cmd_rm loop -/

/-- `safe_remove_clone` (main.rs lines 569-579): bail when the target
path does not start with the clones directory (`Path::starts_with`,
componentwise prefix), bail when `path/.git` does not exist; otherwise
`remove_dir_all` deletes the whole subtree.  Returns the filesystem
after the call together with the error, if any. -/
def safe_remove_clone (path clones_dir : List String)
    (fs : List (List String)) : List (List String) × Option String :=
  if !(clones_dir.isPrefixOf path) then
    (fs, some "Refusing to remove path outside clones dir")
  else if !(fs.contains (path ++ [".git"])) then
    (fs, some "Refusing to remove non-git directory")
  else
    (fs.filter (fun e => !(path.isPrefixOf e)), none)

/-- A concrete configuration store for instantiating theorems: every
invocation produces no output and no environment variable is set. -/
def emptyStore : ConfigStore :=
  ⟨fun _ _ => none, fun _ _ => none, false, fun _ => none, fun _ => none⟩

/-- A concrete configuration store whose every `git config` invocation
succeeds with whitespace-only output. -/
def blankStore : ConfigStore :=
  ⟨fun _ _ => some (true, " \n"), fun _ _ => some (true, " \n"), true,
   fun _ => some (true, " \n"), fun _ => none⟩

/-- The per-target loop of `cmd_rm` (main.rs lines 138-164), threading
the filesystem.  `hookFails` tells whether the preRemove hook phase
fails for a given clone path.  A resolution error or a
`safe_remove_clone` error propagates through `?` and aborts the whole
command; a main-repository target or a (non-forced) hook failure only
skips to the next target; a postRemove failure is discarded. -/
def cmd_rm_loop (w : GitWorld) (repo_root clones_dir : List String)
    (pfx : String) (hookFails : List String → Bool) (force : Bool) :
    List String → List (List String) → List (List String) × Option String
  | [], fs => (fs, none)
  | identifier :: rest, fs =>
    match resolve_target w fs identifier repo_root clones_dir pfx with
    | Except.error e => (fs, some e)
    | Except.ok t =>
      if t.is_main then
        cmd_rm_loop w repo_root clones_dir pfx hookFails force rest fs
      else if hookFails t.path && !force then
        cmd_rm_loop w repo_root clones_dir pfx hookFails force rest fs
      else
        match safe_remove_clone t.path clones_dir fs with
        | (fs', none) =>
          cmd_rm_loop w repo_root clones_dir pfx hookFails force rest fs'
        | (fs', some e) => (fs', some e)

/-! ## Helper lemmas -/

theorem replaceChar_idem (c : Char) : replaceChar (replaceChar c) = replaceChar c := by
  by_cases h : c = '/' ∨ c = '\\' ∨ c = ' ' ∨ c = ':' ∨ c = '*' ∨ c = '?' ∨
      c = '"' ∨ c = '<' ∨ c = '>' ∨ c = '|' ∨ c = '#'
  · simp only [replaceChar, if_pos h]
    decide
  · simp only [replaceChar, if_neg h]

theorem trimDashes_eq_rdrop (l : List Char) :
    trimDashes l = List.rdropWhile (fun c => c = '-') (List.dropWhile (fun c => c = '-') l) := rfl

theorem mem_trimDashes {c : Char} {l : List Char} (h : c ∈ trimDashes l) : c ∈ l := by
  rw [trimDashes_eq_rdrop] at h
  exact (List.dropWhile_suffix _).mem ((List.rdropWhile_prefix _ _).mem h)

theorem trimDashes_idem (l : List Char) : trimDashes (trimDashes l) = trimDashes l := by
  rw [trimDashes_eq_rdrop, trimDashes_eq_rdrop]
  have h1 : List.dropWhile (fun c => c = '-')
      (List.rdropWhile (fun c => c = '-') (List.dropWhile (fun c => c = '-') l)) =
      List.rdropWhile (fun c => c = '-') (List.dropWhile (fun c => c = '-') l) := by
    rcases hy : List.rdropWhile (fun c => c = '-') (List.dropWhile (fun c => c = '-') l)
      with _ | ⟨a, ys⟩
    · simp
    · rw [List.dropWhile_eq_self_iff]
      intro hl
      have hpre := List.rdropWhile_prefix (fun c => c = '-')
        (List.dropWhile (fun c => c = '-') l)
      rw [hy] at hpre
      have hz0 : 0 < (List.dropWhile (fun c => c = '-') l).length :=
        lt_of_lt_of_le (by simp) hpre.length_le
      have hget := List.IsPrefix.getElem hpre (show 0 < (a :: ys).length by simp)
      have hznot := List.dropWhile_get_zero_not (fun c => c = '-') l hz0
      simp only [List.get_eq_getElem] at hznot ⊢
      simp only [List.getElem_cons_zero] at hget ⊢
      rw [hget]
      exact hznot
  rw [h1, List.rdropWhile_idempotent]

theorem foldl_rel {α β : Type} (R : α → α → Prop) (f g : α → β → α)
    (h : ∀ a a' b, R a a' → R (f a b) (g a' b)) :
    ∀ (l : List β) (a a' : α), R a a' → R (l.foldl f a) (l.foldl g a') := by
  intro l
  induction l with
  | nil => intro a a' hr; exact hr
  | cons b bs ih => intro a a' hr; exact ih _ _ (h a a' b hr)

theorem foldl_inv {α β : Type} (P : α → Prop) (f : α → β → α) (Q : β → Prop)
    (hf : ∀ a b, Q b → P a → P (f a b)) :
    ∀ (l : List β), (∀ b ∈ l, Q b) → ∀ a, P a → P (l.foldl f a) := by
  intro l
  induction l with
  | nil => intro _ a ha; exact ha
  | cons b bs ih =>
    intro hq a ha
    exact ih (fun x hx => hq x (List.mem_cons_of_mem _ hx)) _
      (hf a b (hq b (List.mem_cons_self _ _)) ha)

theorem foldl_id {α β : Type} (f : α → β → α) (l : List β)
    (h : ∀ a b, b ∈ l → f a b = a) : ∀ a, l.foldl f a = a := by
  induction l with
  | nil => intro a; rfl
  | cons b bs ih =>
    intro a
    rw [List.foldl_cons, h a b (List.mem_cons_self _ _)]
    exact ih (fun a' b' hb' => h a' b' (List.mem_cons_of_mem _ hb')) a

theorem copy_patterns_eq_fold (files : List (List Char)) (dstRoot : List Char)
    (includes excludes : List (List Char)) (d : Bool) :
    copy_patterns files dstRoot includes excludes d =
      (let excP := excludes.filter (fun p => !is_unsafe_pattern p)
       let st := includes.foldl (includeStep files dstRoot excP d) ⟨0, [], [], []⟩
       ⟨st.copied, st.rels, st.writes⟩) := by
  cases includes with
  | nil => rfl
  | cons p ps => rfl

theorem copyFileStep_drySim (dst : List Char) (exc : List (List Char)) (d d' : Bool)
    (st st' : CopyState) (rel : List Char) (h : DrySim st st') :
    DrySim (copyFileStep dst exc d st rel) (copyFileStep dst exc d' st' rel) := by
  obtain ⟨h1, h2, h3⟩ := h
  unfold copyFileStep
  by_cases he : exc.any (fun pat => globMatch pat rel)
  · simpa [he] using ⟨h1, h2, h3⟩
  · by_cases hs : rel ∈ st.seen
    · have hs' : rel ∈ st'.seen := h2 ▸ hs
      simp only [if_neg he, if_pos hs, if_pos hs']
      exact ⟨h1, h2, h3⟩
    · have hs' : rel ∉ st'.seen := by rw [← h2]; exact hs
      simp only [if_neg he, if_neg hs, if_neg hs']
      exact ⟨by simp [h1], by simp [h2], by simp [h3]⟩

theorem includeStep_drySim (files : List (List Char)) (dst : List Char)
    (exc : List (List Char)) (d d' : Bool) (st st' : CopyState) (p : List Char)
    (h : DrySim st st') :
    DrySim (includeStep files dst exc d st p) (includeStep files dst exc d' st' p) := by
  unfold includeStep
  by_cases hu : is_unsafe_pattern p
  · simpa [hu] using h
  · simp only [if_neg hu]
    exact foldl_rel DrySim _ _ (fun a a' b hr => copyFileStep_drySim dst exc d d' a a' b hr)
      _ st st' h

theorem copyFileStep_dry_writes (dst : List Char) (exc : List (List Char))
    (st : CopyState) (rel : List Char) (h : st.writes = []) :
    (copyFileStep dst exc true st rel).writes = [] := by
  unfold copyFileStep
  by_cases he : exc.any (fun pat => globMatch pat rel)
  · simpa [he] using h
  · by_cases hs : rel ∈ st.seen
    · simp only [if_neg he, if_pos hs]
      exact h
    · simp only [if_neg he, if_neg hs]
      simpa using h

theorem includes_filter_fold (files : List (List Char)) (dstRoot : List Char)
    (excP : List (List Char)) (d : Bool) (includes : List (List Char)) :
    ∀ st, includes.foldl (includeStep files dstRoot excP d) st =
      (includes.filter (fun p => !is_unsafe_pattern p)).foldl
        (includeStep files dstRoot excP d) st := by
  induction includes with
  | nil => intro st; rfl
  | cons p ps ih =>
    intro st
    by_cases hp : is_unsafe_pattern p
    · have hstep : includeStep files dstRoot excP d st p = st := by
        unfold includeStep
        rw [if_pos hp]
      rw [List.foldl_cons, hstep, List.filter_cons, if_neg (by simp [hp])]
      exact ih st
    · rw [List.foldl_cons, List.filter_cons, if_pos (by simp [hp]), List.foldl_cons]
      exact ih _

theorem splitSep_ne_nil (sep : Char) (l : List Char) : splitSep sep l ≠ [] := by
  cases l with
  | nil => simp [splitSep]
  | cons c rest =>
    unfold splitSep
    by_cases hc : c = sep
    · simp [hc]
    · simp only [if_neg hc]
      rcases splitSep sep rest with _ | ⟨h, t⟩ <;> simp

theorem joinSep_splitSep (sep : Char) (l : List Char) :
    joinSep sep (splitSep sep l) = l := by
  induction l with
  | nil => rfl
  | cons c rest ih =>
    unfold splitSep
    by_cases hc : c = sep
    · simp only [if_pos hc]
      rcases hr : splitSep sep rest with _ | ⟨h, t⟩
      · exact absurd hr (splitSep_ne_nil sep rest)
      · show [] ++ sep :: joinSep sep (h :: t) = c :: rest
        rw [hr] at ih
        simp [ih, hc]
    · simp only [if_neg hc]
      rcases hr : splitSep sep rest with _ | ⟨h, t⟩
      · exact absurd hr (splitSep_ne_nil sep rest)
      · rw [hr] at ih
        cases t with
        | nil =>
          show c :: h = c :: rest
          simpa using ih
        | cons t1 ts =>
          show (c :: h) ++ sep :: joinSep sep (t1 :: ts) = c :: rest
          simpa using ih

theorem globMatch_step {c : Char} (h1 : ¬c = '*') (h2 : ¬c = '?') (ps s : List Char) :
    globMatch (c :: ps) (c :: s) = globMatch ps s := by
  simp [globMatch, h1, h2]

theorem globMatch_star_end (s : List Char) : globMatch ('*' :: []) s = true := by
  show (List.tails s).any (fun t => globMatch ([] : List Char) t) = true
  refine List.any_eq_true.mpr ⟨[], (List.mem_tails _ _).mpr List.nil_suffix, rfl⟩

theorem globMatch_lit_append (L : List Char) (h : ∀ c ∈ L, ¬c = '*' ∧ ¬c = '?')
    (ps s : List Char) : globMatch (L ++ ps) (L ++ s) = globMatch ps s := by
  induction L with
  | nil => rfl
  | cons c cs ih =>
    obtain ⟨h1, h2⟩ := h c (List.mem_cons_self _ _)
    show globMatch (c :: (cs ++ ps)) (c :: (cs ++ s)) = globMatch ps s
    rw [globMatch_step h1 h2]
    exact ih (fun x hx => h x (List.mem_cons_of_mem _ hx))

theorem globMatch_literal_eq (L : List Char) (h : ∀ c ∈ L, ¬c = '*' ∧ ¬c = '?') :
    ∀ s, globMatch L s = true → s = L := by
  induction L with
  | nil =>
    intro s hs
    cases s with
    | nil => rfl
    | cons d ds => simp [globMatch] at hs
  | cons c cs ih =>
    intro s hs
    obtain ⟨h1, h2⟩ := h c (List.mem_cons_self _ _)
    cases s with
    | nil => simp [globMatch, h1, h2] at hs
    | cons d ds =>
      simp only [globMatch, if_neg h1, if_neg h2, Bool.and_eq_true, decide_eq_true_eq] at hs
      obtain ⟨rfl, hrest⟩ := hs
      rw [ih (fun x hx => h x (List.mem_cons_of_mem _ hx)) ds hrest]

theorem secrets_include_implies_exclude (b : List Char)
    (h : fsGlobMatch "secrets/*.yaml".toList b = true) :
    globMatch "secrets/*".toList b = true := by
  unfold fsGlobMatch at h
  simp only [Bool.and_eq_true, decide_eq_true_eq] at h
  obtain ⟨hlen, hall⟩ := h
  have hps : splitSlash "secrets/*.yaml".toList =
      ["secrets".toList, "*.yaml".toList] := rfl
  rw [hps] at hlen hall
  rcases hcs : splitSlash b with _ | ⟨a, rest⟩
  · exact absurd hcs (splitSep_ne_nil '/' b)
  · rw [hcs] at hlen hall
    rcases rest with _ | ⟨c2, rest2⟩
    · simp at hlen
    · rcases rest2 with _ | ⟨c3, rest3⟩
      · simp only [List.zip_cons_cons, List.zip_nil_right, List.all_cons, List.all_nil,
          Bool.and_eq_true, Bool.and_true] at hall
        obtain ⟨ha, hc2⟩ := hall
        have haeq : a = "secrets".toList :=
          globMatch_literal_eq "secrets".toList (by decide) a ha
        have hj : joinSep '/' (splitSlash b) = b := joinSep_splitSep '/' b
        rw [hcs] at hj
        have hb : b = "secrets".toList ++ '/' :: c2 := by
          rw [← hj, haeq]
          rfl
        rw [hb]
        have hsp : "secrets/*".toList = "secrets/".toList ++ ['*'] := rfl
        rw [hsp]
        have hb2 : "secrets".toList ++ '/' :: c2 = "secrets/".toList ++ c2 := rfl
        rw [hb2]
        rw [globMatch_lit_append "secrets/".toList (by decide) ['*'] c2]
        exact globMatch_star_end c2
      · simp at hlen

theorem splitSlash_append (a b : List Char) :
    splitSlash (a ++ '/' :: b) = splitSlash a ++ splitSlash b := by
  induction a with
  | nil => rfl
  | cons c rest ih =>
    show splitSep '/' (c :: (rest ++ '/' :: b)) = splitSep '/' (c :: rest) ++ splitSlash b
    unfold splitSep
    by_cases hc : c = '/'
    · simp only [if_pos hc]
      exact congrArg _ ih
    · simp only [if_neg hc]
      rcases hr : splitSep '/' rest with _ | ⟨h, t⟩
      · exact absurd hr (splitSep_ne_nil '/' rest)
      · have ih2 : splitSep '/' (rest ++ '/' :: b) = (h :: t) ++ splitSlash b := by
          rw [← hr]
          exact ih
        rw [ih2]
        simp

theorem wellFormedRel_append {a b : List Char} (ha : wellFormedRel a = true)
    (hb : wellFormedRel b = true) : wellFormedRel (a ++ '/' :: b) = true := by
  unfold wellFormedRel at ha hb ⊢
  simp only [Bool.and_eq_true, Bool.not_eq_true'] at ha hb ⊢
  obtain ⟨⟨ha1, ha2⟩, ha3⟩ := ha
  obtain ⟨⟨hb1, hb2⟩, hb3⟩ := hb
  refine ⟨⟨?_, ?_⟩, ?_⟩
  · cases a with
    | nil => simp at ha1
    | cons c rest => simp
  · cases a with
    | nil => simp at ha1
    | cons c rest =>
      simp only [List.cons_append]
      simp only [List.isPrefixOf] at ha2 ⊢
      simpa using (by simpa using ha2 : ¬('/' = c ∧ True))
  · rw [splitSlash_append, List.any_append, ha3, hb3]
    rfl

theorem copy_dir_recursive_mem (dst : List Char) (excludePats : List (List Char))
    (entries : List DirEntry) :
    ∀ w ∈ copy_dir_recursive dst excludePats entries,
      ∃ e, e ∈ entries ∧ e.rel.isEmpty = false ∧ w = dst ++ '/' :: e.rel := by
  unfold copy_dir_recursive
  refine foldl_inv (fun acc : List (List Char) => ∀ w ∈ acc,
      ∃ e, e ∈ entries ∧ e.rel.isEmpty = false ∧ w = dst ++ '/' :: e.rel)
    _ (fun e => e ∈ entries) ?_ entries (fun e he => he) [] (by simp)
  intro acc e he hacc
  by_cases h1 : e.rel.isEmpty
  · simpa [h1] using hacc
  · simp only [if_neg h1]
    by_cases h2 : excludePats.any (fun pat => globMatch pat e.rel)
    · simpa [h2] using hacc
    · simp only [if_neg h2]
      cases hk : e.kind with
      | dir =>
        intro w hw
        rcases List.mem_append.mp hw with hw2 | hw2
        · exact hacc w hw2
        · exact ⟨e, he, by simpa using h1, by simpa using hw2⟩
      | file =>
        intro w hw
        rcases List.mem_append.mp hw with hw2 | hw2
        · exact hacc w hw2
        · exact ⟨e, he, by simpa using h1, by simpa using hw2⟩
      | symlink =>
        intro w hw
        rcases List.mem_append.mp hw with hw2 | hw2
        · exact hacc w hw2
        · exact ⟨e, he, by simpa using h1, by simpa using hw2⟩
      | other => exact hacc

theorem dir_includes_filter_fold (tree : DirTree) (dstRoot : List Char)
    (excP : List (List Char)) (includes : List (List Char)) :
    ∀ acc, includes.foldl (dirIncludeStep tree dstRoot excP) acc =
      (includes.filter (fun p => !is_unsafe_pattern p)).foldl
        (dirIncludeStep tree dstRoot excP) acc := by
  induction includes with
  | nil => intro acc; rfl
  | cons p ps ih =>
    intro acc
    by_cases hp : is_unsafe_pattern p
    · have hstep : dirIncludeStep tree dstRoot excP acc p = acc := by
        unfold dirIncludeStep
        rw [if_pos hp]
      rw [List.foldl_cons, hstep, List.filter_cons, if_neg (by simp [hp])]
      exact ih acc
    · rw [List.foldl_cons, List.filter_cons, if_pos (by simp [hp]), List.foldl_cons]
      exact ih _

theorem copy_directories_eq_fold (tree : DirTree) (dstRoot : List Char)
    (includes excludes : List (List Char)) :
    copy_directories tree dstRoot includes excludes =
      includes.foldl (dirIncludeStep tree dstRoot
        (excludes.filter (fun p => !is_unsafe_pattern p))) (0, []) := by
  cases includes with
  | nil => rfl
  | cons p ps => rfl

theorem autoAccum_append (a b : List String) :
    ∀ acc, autoAccum acc (a ++ b) = autoAccum (autoAccum acc a) b := by
  induction a with
  | nil => intro acc; rfl
  | cons v rest ih =>
    intro acc
    obtain ⟨seen, out⟩ := acc
    by_cases hv : v ∈ seen
    · simp only [List.cons_append, autoAccum, if_pos hv]
      exact ih _
    · simp only [List.cons_append, autoAccum, if_neg hv]
      exact ih _

theorem autoAccum_snd (l : List String) :
    ∀ seen out, (autoAccum (seen, out) l).2 = out ++ dedupFirst seen l := by
  induction l with
  | nil => intro seen out; simp [autoAccum, dedupFirst]
  | cons v rest ih =>
    intro seen out
    by_cases hv : v ∈ seen
    · simp only [autoAccum, dedupFirst, if_pos hv]
      exact ih seen out
    · simp only [autoAccum, dedupFirst, if_neg hv]
      rw [ih (v :: seen) (out ++ [v])]
      simp

theorem dedupFirst_nodup_aux (l : List String) :
    ∀ seen, (dedupFirst seen l).Nodup ∧ ∀ x ∈ dedupFirst seen l, x ∉ seen := by
  induction l with
  | nil => intro seen; simp [dedupFirst]
  | cons v rest ih =>
    intro seen
    by_cases hv : v ∈ seen
    · simp only [dedupFirst, if_pos hv]
      exact ih seen
    · simp only [dedupFirst, if_neg hv]
      obtain ⟨hnd, hmem⟩ := ih (v :: seen)
      refine ⟨List.nodup_cons.mpr ⟨fun hc => ?_, hnd⟩, ?_⟩
      · exact (hmem v hc) (List.mem_cons_self _ _)
      · intro x hx
        rcases List.mem_cons.mp hx with rfl | hx'
        · exact hv
        · intro hxs
          exact (hmem x hx') (List.mem_cons_of_mem _ hxs)

/-! ## Claim theorems -/

/-- C1: in both `copy_patterns` and `copy_directories`, unsafe include
patterns are skipped entirely (removing them from the include list
changes nothing), unsafe exclude patterns are dropped from the exclude
set only (pre-filtering the exclude list changes nothing), no error is
raised (both functions are total here), and every path created lands at
`dst_root/rel` for a well-formed relative path `rel` — in files mode a
regular file of the source tree, in directories mode a walk entry under
a matched source directory — never outside `dst_root`. -/
theorem unsafe_patterns_skipped_and_contained (files : List (List Char))
    (tree : DirTree) (dstRoot : List Char) (includes excludes : List (List Char))
    (d : Bool)
    (hwf : ∀ f ∈ files, wellFormedRel f = true)
    (hwfd : ∀ r ∈ tree.dirs, wellFormedRel r = true)
    (hwfw : ∀ r ∈ tree.dirs, ∀ e ∈ tree.walk r,
        e.rel.isEmpty = true ∨ wellFormedRel e.rel = true) :
    (copy_patterns files dstRoot includes excludes d =
      copy_patterns files dstRoot (includes.filter (fun p => !is_unsafe_pattern p)) excludes d
    ∧ copy_patterns files dstRoot includes excludes d =
      copy_patterns files dstRoot includes (excludes.filter (fun p => !is_unsafe_pattern p)) d
    ∧ ∀ w ∈ (copy_patterns files dstRoot includes excludes d).writes,
        ∃ rel, rel ∈ files ∧ w = dstRoot ++ '/' :: rel ∧ wellFormedRel rel = true)
    ∧ (copy_directories tree dstRoot includes excludes =
      copy_directories tree dstRoot (includes.filter (fun p => !is_unsafe_pattern p)) excludes
    ∧ copy_directories tree dstRoot includes excludes =
      copy_directories tree dstRoot includes (excludes.filter (fun p => !is_unsafe_pattern p))
    ∧ ∀ w ∈ (copy_directories tree dstRoot includes excludes).2,
        ∃ drel rel2, drel ∈ tree.dirs
          ∧ w = dstRoot ++ '/' :: (drel ++ '/' :: rel2)
          ∧ wellFormedRel (drel ++ '/' :: rel2) = true) := by
  refine ⟨⟨?_, ?_, ?_⟩, ?_, ?_, ?_⟩
  · simp only [copy_patterns_eq_fold]
    rw [includes_filter_fold files dstRoot
      (excludes.filter (fun p => !is_unsafe_pattern p)) d includes ⟨0, [], [], []⟩]
  · rw [copy_patterns_eq_fold, copy_patterns_eq_fold]
    have hff : (excludes.filter (fun p => !is_unsafe_pattern p)).filter
        (fun p => !is_unsafe_pattern p) = excludes.filter (fun p => !is_unsafe_pattern p) := by
      apply List.filter_eq_self.mpr
      intro a ha
      exact (List.mem_filter.mp ha).2
    rw [hff]
  · rw [copy_patterns_eq_fold]
    intro w hw
    have hP : ∀ w ∈ (includes.foldl (includeStep files dstRoot
        (excludes.filter (fun p => !is_unsafe_pattern p)) d) ⟨0, [], [], []⟩).writes,
        ∃ rel, rel ∈ files ∧ w = dstRoot ++ '/' :: rel ∧ wellFormedRel rel = true := by
      refine foldl_inv (fun st : CopyState => ∀ w ∈ st.writes,
          ∃ rel, rel ∈ files ∧ w = dstRoot ++ '/' :: rel ∧ wellFormedRel rel = true)
        _ (fun _ => True) ?_ includes (fun _ _ => trivial) _ (by simp)
      intro a p _ ha
      unfold includeStep
      by_cases hu : is_unsafe_pattern p
      · simpa [hu] using ha
      · simp only [if_neg hu]
        refine foldl_inv (fun st : CopyState => ∀ w ∈ st.writes,
            ∃ rel, rel ∈ files ∧ w = dstRoot ++ '/' :: rel ∧ wellFormedRel rel = true)
          _ (fun b => b ∈ files) ?_ _ (fun b hb => (List.mem_filter.mp hb).1) _ ha
        intro a2 rel hrel ha2
        unfold copyFileStep
        by_cases he : (excludes.filter (fun p => !is_unsafe_pattern p)).any
            (fun pat => globMatch pat rel)
        · simpa [he] using ha2
        · by_cases hs : rel ∈ a2.seen
          · simp only [if_neg he, if_pos hs]
            exact ha2
          · simp only [if_neg he, if_neg hs]
            cases d with
            | true =>
              intro w hw2
              exact ha2 w hw2
            | false =>
              intro w hw2
              have hw3 : w ∈ a2.writes ++ [dstRoot ++ '/' :: rel] := hw2
              rcases List.mem_append.mp hw3 with hw4 | hw4
              · exact ha2 w hw4
              · have heq : w = dstRoot ++ '/' :: rel := by simpa using hw4
                exact ⟨rel, hrel, heq, hwf rel hrel⟩
    exact hP w hw
  · rw [copy_directories_eq_fold, copy_directories_eq_fold]
    exact dir_includes_filter_fold tree dstRoot
      (excludes.filter (fun p => !is_unsafe_pattern p)) includes (0, [])
  · rw [copy_directories_eq_fold, copy_directories_eq_fold]
    have hff : (excludes.filter (fun p => !is_unsafe_pattern p)).filter
        (fun p => !is_unsafe_pattern p) = excludes.filter (fun p => !is_unsafe_pattern p) := by
      apply List.filter_eq_self.mpr
      intro a ha
      exact (List.mem_filter.mp ha).2
    rw [hff]
  · rw [copy_directories_eq_fold]
    refine foldl_inv (fun acc : Nat × List (List Char) => ∀ w ∈ acc.2,
        ∃ drel rel2, drel ∈ tree.dirs
          ∧ w = dstRoot ++ '/' :: (drel ++ '/' :: rel2)
          ∧ wellFormedRel (drel ++ '/' :: rel2) = true)
      _ (fun _ => True) ?_ includes (fun _ _ => trivial) _ (by simp)
    intro acc p _ hacc
    unfold dirIncludeStep
    by_cases hu : is_unsafe_pattern p
    · simpa [hu] using hacc
    · simp only [if_neg hu]
      refine foldl_inv (fun acc : Nat × List (List Char) => ∀ w ∈ acc.2,
          ∃ drel rel2, drel ∈ tree.dirs
            ∧ w = dstRoot ++ '/' :: (drel ++ '/' :: rel2)
            ∧ wellFormedRel (drel ++ '/' :: rel2) = true)
        _ (fun r => r ∈ tree.dirs) ?_ tree.dirs (fun r hr => hr) _ hacc
      intro acc2 rel hrel hacc2
      unfold dirEntryStep
      by_cases hm : globMatch p (baseName rel)
      · rw [if_neg (by simp [hm])]
        by_cases hx : (excludes.filter (fun q => !is_unsafe_pattern q)).any
            (fun pat => globMatch pat rel)
        · simpa [hx] using hacc2
        · simp only [if_neg hx]
          intro w hw
          rcases List.mem_append.mp hw with hw2 | hw2
          · exact hacc2 w hw2
          · obtain ⟨e, hemem, hene, hweq⟩ := copy_dir_recursive_mem
              (dstRoot ++ '/' :: rel) _ (tree.walk rel) w hw2
            refine ⟨rel, e.rel, hrel, ?_, ?_⟩
            · rw [hweq]
              simp [List.append_assoc]
            · have hwfe : wellFormedRel e.rel = true := by
                rcases hwfw rel hrel e hemem with hemp | hok
                · rw [hemp] at hene
                  cases hene
                · exact hok
              exact wellFormedRel_append (hwfd rel hrel) hwfe
      · rw [if_pos (by simp [hm])]
        exact hacc2

/-- Witness for C1 at a concrete tree (one regular file, one directory
holding a settings file): an unsafe include and an unsafe exclude
pattern are both dropped by both copy modes, and every created path
stays under the destination root. -/
theorem unsafe_patterns_skipped_and_contained_witness :
    ((∀ f ∈ (["a.env".toList] : List (List Char)), wellFormedRel f = true)
      ∧ (∀ r ∈ sampleDirTree.dirs, wellFormedRel r = true)
      ∧ (∀ r ∈ sampleDirTree.dirs, ∀ e ∈ sampleDirTree.walk r,
          e.rel.isEmpty = true ∨ wellFormedRel e.rel = true))
    ∧ ((copy_patterns ["a.env".toList] "/dst".toList
          ["../x".toList, "*.env".toList, ".vscode".toList] ["/e".toList] false =
        copy_patterns ["a.env".toList] "/dst".toList
          ((["../x".toList, "*.env".toList, ".vscode".toList]).filter
            (fun p => !is_unsafe_pattern p)) ["/e".toList] false
      ∧ copy_patterns ["a.env".toList] "/dst".toList
          ["../x".toList, "*.env".toList, ".vscode".toList] ["/e".toList] false =
        copy_patterns ["a.env".toList] "/dst".toList
          ["../x".toList, "*.env".toList, ".vscode".toList]
          ((["/e".toList] : List (List Char)).filter (fun p => !is_unsafe_pattern p)) false
      ∧ ∀ w ∈ (copy_patterns ["a.env".toList] "/dst".toList
          ["../x".toList, "*.env".toList, ".vscode".toList] ["/e".toList] false).writes,
          ∃ rel, rel ∈ (["a.env".toList] : List (List Char))
            ∧ w = "/dst".toList ++ '/' :: rel ∧ wellFormedRel rel = true)
    ∧ (copy_directories sampleDirTree "/dst".toList
          ["../x".toList, "*.env".toList, ".vscode".toList] ["/e".toList] =
        copy_directories sampleDirTree "/dst".toList
          ((["../x".toList, "*.env".toList, ".vscode".toList]).filter
            (fun p => !is_unsafe_pattern p)) ["/e".toList]
      ∧ copy_directories sampleDirTree "/dst".toList
          ["../x".toList, "*.env".toList, ".vscode".toList] ["/e".toList] =
        copy_directories sampleDirTree "/dst".toList
          ["../x".toList, "*.env".toList, ".vscode".toList]
          ((["/e".toList] : List (List Char)).filter (fun p => !is_unsafe_pattern p))
      ∧ ∀ w ∈ (copy_directories sampleDirTree "/dst".toList
          ["../x".toList, "*.env".toList, ".vscode".toList] ["/e".toList]).2,
          ∃ drel rel2, drel ∈ sampleDirTree.dirs
            ∧ w = "/dst".toList ++ '/' :: (drel ++ '/' :: rel2)
            ∧ wellFormedRel (drel ++ '/' :: rel2) = true)) :=
  ⟨⟨by decide, by decide, by decide⟩,
    unsafe_patterns_skipped_and_contained ["a.env".toList] sampleDirTree "/dst".toList
      ["../x".toList, "*.env".toList, ".vscode".toList] ["/e".toList] false
      (by decide) (by decide) (by decide)⟩

/-- C3: for every source tree, include list and exclude list, a dry run
of `copy_patterns` performs no filesystem write, runs the identical
candidate-selection logic (same selected relative paths in the same
order), and reports the same count as a real run over the same tree. -/
theorem copy_patterns_dry_run_equivalent (files : List (List Char)) (dstRoot : List Char)
    (includes excludes : List (List Char)) :
    (copy_patterns files dstRoot includes excludes true).copied =
      (copy_patterns files dstRoot includes excludes false).copied
    ∧ (copy_patterns files dstRoot includes excludes true).rels =
      (copy_patterns files dstRoot includes excludes false).rels
    ∧ (copy_patterns files dstRoot includes excludes true).writes = [] := by
  simp only [copy_patterns_eq_fold]
  have hsim : DrySim
      (includes.foldl (includeStep files dstRoot
        (excludes.filter (fun p => !is_unsafe_pattern p)) true) ⟨0, [], [], []⟩)
      (includes.foldl (includeStep files dstRoot
        (excludes.filter (fun p => !is_unsafe_pattern p)) false) ⟨0, [], [], []⟩) :=
    foldl_rel DrySim _ _
      (fun a a' b hr => includeStep_drySim files dstRoot _ true false a a' b hr)
      includes _ _ ⟨rfl, rfl, rfl⟩
  obtain ⟨h1, h2, h3⟩ := hsim
  have hw : (includes.foldl (includeStep files dstRoot
      (excludes.filter (fun p => !is_unsafe_pattern p)) true) ⟨0, [], [], []⟩).writes = [] := by
    refine foldl_inv (fun st : CopyState => st.writes = []) _ (fun _ => True)
      ?_ includes (fun _ _ => trivial) _ rfl
    intro a b _ ha
    unfold includeStep
    by_cases hu : is_unsafe_pattern b
    · simpa [hu] using ha
    · simp only [if_neg hu]
      refine foldl_inv (fun st : CopyState => st.writes = []) _ (fun _ => True)
        ?_ _ (fun _ _ => trivial) _ ha
      intro a' r _ ha'
      exact copyFileStep_dry_writes dstRoot _ a' r ha'
  exact ⟨h1, h3, hw⟩

/-- C8 counterexample: over the tree holding `secrets/a.yaml` and
`secrets/prod.yaml`, with include `secrets/*.yaml` and excludes
`secrets/*` and `secrets/prod.yaml`, the include pattern does match
`secrets/a.yaml`, yet nothing at all is selected for copying — the
claim expects `secrets/a.yaml` to be copied. -/
theorem secrets_scenario_counterexample :
    "secrets/a.yaml".toList ∈
      (["secrets/a.yaml".toList, "secrets/prod.yaml".toList] : List (List Char))
    ∧ fsGlobMatch "secrets/*.yaml".toList "secrets/a.yaml".toList = true
    ∧ (copy_patterns ["secrets/a.yaml".toList, "secrets/prod.yaml".toList] "/dst".toList
        ["secrets/*.yaml".toList] ["secrets/*".toList, "secrets/prod.yaml".toList]
        false).rels = [] :=
  ⟨by decide, by decide, by decide⟩

/-- C8 amended: with exclude `secrets/*` in force (matched against the
whole relative path, where `*` may cross `/`), every candidate matched
by the include `secrets/*.yaml` is excluded, so the copy selects zero
files over every source tree. -/
theorem secrets_exclude_covers_include (files : List (List Char)) (dstRoot : List Char)
    (d : Bool) :
    copy_patterns files dstRoot ["secrets/*.yaml".toList]
      ["secrets/*".toList, "secrets/prod.yaml".toList] d = ⟨0, [], []⟩ := by
  rw [copy_patterns_eq_fold]
  have hexc : (["secrets/*".toList, "secrets/prod.yaml".toList] : List (List Char)).filter
      (fun p => !is_unsafe_pattern p) = ["secrets/*".toList, "secrets/prod.yaml".toList] := by
    decide
  simp only [hexc]
  have hfold : (["secrets/*.yaml".toList] : List (List Char)).foldl
      (includeStep files dstRoot ["secrets/*".toList, "secrets/prod.yaml".toList] d)
      ⟨0, [], [], []⟩ = (⟨0, [], [], []⟩ : CopyState) := by
    rw [List.foldl_cons, List.foldl_nil]
    unfold includeStep
    rw [if_neg (by decide)]
    refine foldl_id _ _ ?_ _
    intro a b hb
    have hmem := List.mem_filter.mp hb
    have hstrip : stripDotSlash "secrets/*.yaml".toList = "secrets/*.yaml".toList := by decide
    rw [hstrip] at hmem
    have hglob := secrets_include_implies_exclude b (by simpa using hmem.2)
    unfold copyFileStep
    rw [if_pos ?_]
    exact List.any_eq_true.mpr ⟨"secrets/*".toList, by simp, hglob⟩
  simp only [hfold]

/-- C5: `cfg_get_all` in Auto scope returns the concatenation, in this
fixed order, of Local values, then `.spacesrc` file values, then Global
values, then System values, deduplicated by exact string equality
preserving first-seen order, and the result has no duplicates. -/
theorem cfg_get_all_auto_order_dedup (st : ConfigStore) (key : String) :
    cfg_get_all st key Scope.Auto =
      dedupFirst [] (git_config_get_all st key Scope.Local ++ git_config_file_get_all st key
        ++ git_config_get_all st key Scope.Global ++ git_config_get_all st key Scope.System)
    ∧ (cfg_get_all st key Scope.Auto).Nodup := by
  have heq : cfg_get_all st key Scope.Auto =
      dedupFirst [] (git_config_get_all st key Scope.Local ++ git_config_file_get_all st key
        ++ git_config_get_all st key Scope.Global ++ git_config_get_all st key Scope.System) := by
    show (autoAccum (autoAccum (autoAccum (autoAccum ([], []) _) _) _) _).2 = _
    rw [← autoAccum_append, ← autoAccum_append, ← autoAccum_append]
    rw [autoAccum_snd]
    simp [List.append_assoc]
  refine ⟨heq, ?_⟩
  rw [heq]
  exact (dedupFirst_nodup_aux _ []).1

theorem specFirstNonEmpty_cons (o : Option String) (rest : List (Option String)) (fb : String) :
    specFirstNonEmpty (o :: rest) fb =
      match nonEmptyOpt o with
      | some v => v
      | none => specFirstNonEmpty rest fb := by
  cases o with
  | none => simp [specFirstNonEmpty, nonEmptyOpt]
  | some v =>
    by_cases hv : v.isEmpty <;> simp [specFirstNonEmpty, nonEmptyOpt, hv]

theorem nonEmptyOpt_some {o : Option String} {v : String} (h : nonEmptyOpt o = some v) :
    v.isEmpty = false := by
  cases o with
  | none => simp [nonEmptyOpt] at h
  | some w =>
    by_cases hw : w.isEmpty
    · simp [nonEmptyOpt, hw] at h
    · simp [nonEmptyOpt, hw] at h
      subst h
      simpa using hw

theorem envTier_some {st : ConfigStore} {en v : String} (h : envTier st en = some v) :
    v.isEmpty = false := by
  by_cases hen : en.isEmpty
  · simp [envTier, hen] at h
  · simp only [envTier, if_neg hen] at h
    exact nonEmptyOpt_some h

/-- C4: `cfg_default` resolves by first-non-empty-wins short-circuit in
the order: Local single value, `.spacesrc` file value (alternate file
key when supplied, else the same key), Auto single value, named
environment variable, literal fallback; it is a total function (the
Rust `Result` is always `Ok`), and its result is non-empty whenever the
literal fallback is non-empty.  The hypothesis states that the process
environment holds no variable with an empty name (Rust `env::var("")`
is always `Err`). -/
theorem cfg_default_precedence (st : ConfigStore) (key env_name fallback : String)
    (file_key : Option String) (henv : st.envVar "" = none) :
    cfg_default st key env_name fallback file_key =
      specFirstNonEmpty [git_config_get st key Scope.Local,
        (git_config_file_get_all st (file_key.getD key)).head?,
        git_config_get st key Scope.Auto,
        st.envVar env_name] fallback
    ∧ (fallback.isEmpty = false →
        (cfg_default st key env_name fallback file_key).isEmpty = false) := by
  have henvT : envTier st env_name = nonEmptyOpt (st.envVar env_name) := by
    by_cases hen : env_name.isEmpty
    · have h0 : env_name = "" := (String.isEmpty_iff env_name).mp hen
      rw [envTier, if_pos hen, h0, henv]
      rfl
    · rw [envTier, if_neg hen]
  constructor
  · rw [cfg_default, specFirstNonEmpty_cons, specFirstNonEmpty_cons,
      specFirstNonEmpty_cons, specFirstNonEmpty_cons]
    rw [localTier, fileTier, autoTier]
    cases nonEmptyOpt (git_config_get st key Scope.Local) with
    | some v => simp [Option.orElse]
    | none =>
      simp only [Option.none_orElse]
      cases nonEmptyOpt ((git_config_file_get_all st (file_key.getD key)).head?) with
      | some v => simp [Option.orElse]
      | none =>
        simp only [Option.none_orElse]
        cases nonEmptyOpt (git_config_get st key Scope.Auto) with
        | some v => simp [Option.orElse]
        | none =>
          simp only [Option.none_orElse]
          rw [henvT]
          cases nonEmptyOpt (st.envVar env_name) with
          | some v => simp [specFirstNonEmpty]
          | none => simp [specFirstNonEmpty]
  · intro hfb
    rw [cfg_default]
    cases hl : localTier st key with
    | some v => simpa [Option.orElse] using nonEmptyOpt_some hl
    | none =>
      simp only [Option.orElse]
      cases hf : fileTier st key file_key with
      | some v => simpa [Option.orElse] using nonEmptyOpt_some hf
      | none =>
        simp only [Option.orElse]
        cases ha : autoTier st key with
        | some v => simpa [Option.orElse] using nonEmptyOpt_some ha
        | none =>
          simp only [Option.orElse]
          cases he : envTier st env_name with
          | some v => simpa [Option.orElse] using envTier_some he
          | none => simpa [Option.orElse] using hfb

/-- Witness for C4 at a concrete store: with every scope and environment
variable empty, the non-empty fallback comes back. -/
theorem cfg_default_precedence_witness :
    emptyStore.envVar "" = none
    ∧ (cfg_default emptyStore "spaces.clones.dir" "SPACES_CLONES_DIR" "fb" none =
        specFirstNonEmpty [git_config_get emptyStore "spaces.clones.dir" Scope.Local,
          (git_config_file_get_all emptyStore ((none : Option String).getD "spaces.clones.dir")).head?,
          git_config_get emptyStore "spaces.clones.dir" Scope.Auto,
          emptyStore.envVar "SPACES_CLONES_DIR"] "fb"
        ∧ (("fb" : String).isEmpty = false →
            (cfg_default emptyStore "spaces.clones.dir" "SPACES_CLONES_DIR" "fb" none).isEmpty = false)) :=
  ⟨rfl, cfg_default_precedence emptyStore "spaces.clones.dir" "SPACES_CLONES_DIR" "fb" none rfl⟩

/-- C10: a configuration value stored as the empty string is
indistinguishable from an absent key: when the underlying config-store
invocation succeeds but its trimmed output is empty, `git_stdout_opt`
returns `None`, so `cfg_get_all` returns the empty sequence (in every
scope, Auto included when every tier is empty) and `cfg_default` skips
that tier and falls through to the remaining fallbacks. -/
theorem empty_value_is_absent (st : ConfigStore) (key out : String)
    (hempty : (rustTrim out).isEmpty = true) :
    git_stdout_opt (some (true, out)) = none
    ∧ (∀ scope, scope ≠ Scope.Auto → st.getAllRaw scope key = some (true, out) →
        cfg_get_all st key scope = [])
    ∧ (∀ env_name fallback file_key, st.getRaw Scope.Local key = some (true, out) →
        cfg_default st key env_name fallback file_key =
          cfg_default_from_file st key env_name fallback file_key)
    ∧ ((∀ scope, st.getAllRaw scope key = some (true, out)) →
        st.fileGetAllRaw key = some (true, out) →
        cfg_get_all st key Scope.Auto = []) := by
  have hnone : git_stdout_opt (some (true, out)) = none := by
    simp [git_stdout_opt, hempty]
  refine ⟨hnone, ?_, ?_, ?_⟩
  · intro scope hs hraw
    have hga : git_config_get_all st key scope = [] := by
      simp [git_config_get_all, hraw, hnone]
    cases scope with
    | Auto => exact absurd rfl hs
    | Local => simpa [cfg_get_all] using hga
    | Global => simpa [cfg_get_all] using hga
    | System => simpa [cfg_get_all] using hga
  · intro env_name fallback file_key hraw
    have hloc : localTier st key = none := by
      simp [localTier, git_config_get, hraw, hnone, nonEmptyOpt]
    rw [cfg_default, cfg_default_from_file, hloc]
    simp [Option.orElse]
  · intro hall hfile
    have hga : ∀ scope, git_config_get_all st key scope = [] := by
      intro scope
      simp [git_config_get_all, hall scope, hnone]
    have hgf : git_config_file_get_all st key = [] := by
      by_cases hfe : st.fileExists <;> simp [git_config_file_get_all, hfe, hfile, hnone]
    show (autoAccum (autoAccum (autoAccum (autoAccum ([], []) _) _) _) _).2 = _
    rw [hga, hga, hga, hgf]
    rfl

/-- Witness for C10 at a concrete store whose every invocation succeeds
with whitespace-only output. -/
theorem empty_value_is_absent_witness :
    (rustTrim " \n").isEmpty = true
    ∧ cfg_get_all blankStore "spaces.copy.include" Scope.Local = []
    ∧ cfg_default blankStore "spaces.copy.include" "E" "fb" none =
        cfg_default_from_file blankStore "spaces.copy.include" "E" "fb" none
    ∧ cfg_get_all blankStore "spaces.copy.include" Scope.Auto = [] := by
  have h := empty_value_is_absent blankStore "spaces.copy.include" " \n" (by decide)
  exact ⟨by decide, h.2.1 Scope.Local (by decide) rfl,
    h.2.2.1 "E" "fb" none rfl, h.2.2.2 (fun _ => rfl) rfl⟩

/-- C6 counterexample: when every branch lookup fails entirely,
`resolve_target "1"` still succeeds with `is_main` and `path = repo_root`,
but its branch field is the literal `"(detached)"`, not `"unknown"` as
the claim states for total failure (no `"unknown"` exists anywhere in
the code). -/
theorem resolve_main_total_failure_not_unknown :
    resolve_target failingGitWorld [] "1" ["repo"] ["clones"] "s-" =
      Except.ok ⟨true, ["repo"], "main", "(detached)"⟩
    ∧ ("(detached)" : String) ≠ "unknown" :=
  ⟨rfl, by decide⟩

/-- C6 amended: `resolve_target` with identifier `"1"` always succeeds
and returns the main repository (`is_main = true`, `path = repo_root`)
regardless of the filesystem (clones-directory) contents, with its live
current branch, the literal `"(detached)"` both when the tool reports a
detached state and on total failure of the branch lookup. -/
theorem resolve_target_main_unconditional (w : GitWorld) (fs : List (List String))
    (repo_root clones_dir : List String) (pfx : String) :
    resolve_target w fs "1" repo_root clones_dir pfx =
      Except.ok ⟨true, repo_root, "main", (current_branch w repo_root).getD "(detached)"⟩ := by
  rfl

/-- C2 counterexample: a target path equal to the clones directory itself
is not a strict descendant of it, yet when it holds a `.git` entry
`safe_remove_clone` succeeds and deletes the whole tree — the claim says
it must always fail and delete nothing. -/
theorem safe_remove_clone_nonstrict_counterexample :
    safe_remove_clone ["home", "clones"] ["home", "clones"]
      [["home", "clones"], ["home", "clones", ".git"]] = ([], none)
    ∧ ([["home", "clones"], ["home", "clones", ".git"]] : List (List String)) ≠ [] :=
  ⟨by decide, by decide⟩

/-- C2 amended: removing a space whose path does not extend the clones
directory componentwise (the clones directory itself passes this check),
or which holds no `.git` entry, always fails with a fatal error and
deletes nothing; and `--force` never bypasses these checks — whenever
`cmd_rm` reaches the removal step on a resolved non-main target (hook
gating passed, with or without force), a safety-check failure aborts the
whole command with the filesystem unchanged. -/
theorem remove_safety_checks (path clones_dir : List String) (fs : List (List String))
    (hbad : clones_dir.isPrefixOf path = false ∨ fs.contains (path ++ [".git"]) = false) :
    ((safe_remove_clone path clones_dir fs).1 = fs
      ∧ (safe_remove_clone path clones_dir fs).2.isSome = true)
    ∧ (∀ (w : GitWorld) (repo_root : List String) (pfx : String)
        (hookFails : List String → Bool) (force : Bool) (identifier : String)
        (rest : List String) (t : Target),
        resolve_target w fs identifier repo_root clones_dir pfx = Except.ok t →
        t.is_main = false → t.path = path →
        (hookFails t.path && !force) = false →
        cmd_rm_loop w repo_root clones_dir pfx hookFails force (identifier :: rest) fs
          = (fs, (safe_remove_clone path clones_dir fs).2)) := by
  have h1 : (safe_remove_clone path clones_dir fs).1 = fs
      ∧ (safe_remove_clone path clones_dir fs).2.isSome = true := by
    unfold safe_remove_clone
    rcases hbad with hb | hb
    · rw [if_pos (by simp [hb])]
      exact ⟨rfl, rfl⟩
    · rcases hx : clones_dir.isPrefixOf path with _ | _
      · simp
      · have hb2 : path ++ [".git"] ∉ fs := by simpa using hb
        simp [hb2]
  refine ⟨h1, ?_⟩
  intro w repo_root pfx hookFails force identifier rest t hres hmain hpath hhook
  obtain ⟨e, he⟩ := Option.isSome_iff_exists.mp h1.2
  have hpair : safe_remove_clone path clones_dir fs = (fs, some e) := by
    have hfst := h1.1
    rcases hsr : safe_remove_clone path clones_dir fs with ⟨a, b⟩
    rw [hsr] at hfst he
    simp only at hfst he
    rw [hfst, he]
  unfold cmd_rm_loop
  rw [hres]
  rw [hpath] at hhook
  simp only [hmain, Bool.false_eq_true, if_false, hpath, hpair, he]
  rw [if_neg (by simp [hhook])]

/-- Witness for C2 at a concrete input: a path outside the clones
directory is refused with the filesystem untouched. -/
theorem remove_safety_checks_witness :
    (safe_remove_clone ["x"] ["home", "clones"] []).1 = []
    ∧ (safe_remove_clone ["x"] ["home", "clones"] []).2.isSome = true :=
  (remove_safety_checks ["x"] ["home", "clones"] [] (Or.inl (by decide))).1

/-- C7 counterexample: in a two-target `rm` batch whose first identifier
is unresolvable, the command aborts with the not-found error and the
second target — which on its own is removable — is left unprocessed,
contradicting the claim that the remaining targets are still
processed. -/
theorem cmd_rm_not_found_aborts_counterexample :
    (cmd_rm_loop failingGitWorld ["home", "repo"] ["home", "clones"] "s-"
        (fun _ => false) false ["nope", "b"]
        [["home", "clones"], ["home", "clones", "s-b"], ["home", "clones", "s-b", ".git"]]).2
      = some "Target not found for space: nope"
    ∧ ["home", "clones", "s-b"] ∈ (cmd_rm_loop failingGitWorld ["home", "repo"]
        ["home", "clones"] "s-" (fun _ => false) false ["nope", "b"]
        [["home", "clones"], ["home", "clones", "s-b"], ["home", "clones", "s-b", ".git"]]).1
    ∧ (cmd_rm_loop failingGitWorld ["home", "repo"] ["home", "clones"] "s-"
        (fun _ => false) false ["b"]
        [["home", "clones"], ["home", "clones", "s-b"], ["home", "clones", "s-b", ".git"]]).1
      = [["home", "clones"]] :=
  ⟨by decide, by decide, by decide⟩

/-- C7 amended: in the `cmd_rm` loop, an unresolvable identifier aborts
the whole batch with that error and leaves the filesystem unchanged —
the remaining targets are not processed; per-item continuation applies
instead to a main-repository target, which is skipped while the rest of
the batch proceeds. -/
theorem cmd_rm_error_handling (w : GitWorld) (repo_root clones_dir : List String)
    (pfx : String) (hookFails : List String → Bool) (force : Bool)
    (identifier : String) (rest : List String) (fs : List (List String)) :
    (∀ e, resolve_target w fs identifier repo_root clones_dir pfx = Except.error e →
      cmd_rm_loop w repo_root clones_dir pfx hookFails force (identifier :: rest) fs
        = (fs, some e))
    ∧ (∀ t, resolve_target w fs identifier repo_root clones_dir pfx = Except.ok t →
      t.is_main = true →
      cmd_rm_loop w repo_root clones_dir pfx hookFails force (identifier :: rest) fs
        = cmd_rm_loop w repo_root clones_dir pfx hookFails force rest fs) := by
  constructor
  · intro e he
    unfold cmd_rm_loop
    rw [he]
  · intro t ht hmain
    rw [cmd_rm_loop]
    rw [ht]
    simp [hmain]

/-- Witness for C7 at a concrete input: a single unresolvable identifier
aborts with the not-found error naming it. -/
theorem cmd_rm_error_handling_witness :
    cmd_rm_loop failingGitWorld ["r"] ["c"] "" (fun _ => false) false ["zz"] [] =
      ([], some "Target not found for space: zz") :=
  (cmd_rm_error_handling failingGitWorld ["r"] ["c"] "" (fun _ => false) false
    "zz" [] []).1 "Target not found for space: zz" rfl

/-- C9: the name sanitization used at creation and resolution time
(replace each of `/ \ space : * ? " < > | #` by `-`, then trim leading
and trailing `-`) is idempotent: sanitizing twice equals sanitizing
once, for every string. -/
theorem sanitize_branch_name_idempotent (x : List Char) :
    sanitize_branch_name (sanitize_branch_name x) = sanitize_branch_name x := by
  unfold sanitize_branch_name
  have hmap : (trimDashes (x.map replaceChar)).map replaceChar
      = trimDashes (x.map replaceChar) := by
    have hall : ∀ c ∈ trimDashes (x.map replaceChar), replaceChar c = c := by
      intro c hc
      rcases List.mem_map.mp (mem_trimDashes hc) with ⟨d, _, rfl⟩
      exact replaceChar_idem d
    calc (trimDashes (x.map replaceChar)).map replaceChar
        = (trimDashes (x.map replaceChar)).map id := List.map_congr_left hall
      _ = _ := List.map_id _
  rw [hmap, trimDashes_idem]

end Spaces
